import Mathlib

/-!
Verification development for the epub-translator core (translation.ts and the
job-loop variant with the pause gate).  The TypeScript source is shallowly
embedded: markup trees become the mutual inductives `XNode`/`XForest`, the
cheerio-based helpers (`selectLeafBlocks`, `normalizeText`, `stripBlockTags`,
`insertBilingual`, `replaceBlock`), the greedy chunking loop, the manifest
resolution and the per-document job loops become executable Lean functions,
and the claimed properties are proved about those functions.
-/

namespace EpubTranslator

mutual

/-- A node of a content document's markup tree (the cheerio DOM): either a
text node or an element with a tag name, an attribute list and children. -/
inductive XNode where
  | text (s : String)
  | elem (tag : String) (attrs : List (String × String)) (children : XForest)
deriving DecidableEq

/-- A list of sibling nodes (a separate mutual inductive rather than
`List XNode`, so that functions over the tree are structurally recursive and
reduce inside the kernel). -/
inductive XForest where
  | nil
  | cons (n : XNode) (f : XForest)
deriving DecidableEq

end

/-- Build a forest from a list of nodes. -/
def XForest.ofList : List XNode → XForest
  | [] => .nil
  | n :: ns => .cons n (XForest.ofList ns)

/-- The sibling nodes of a forest as a list. -/
def XForest.toList : XForest → List XNode
  | .nil => []
  | .cons n f => n :: f.toList

mutual

/-- All elements of the subtree rooted at a node, in document order (the node
itself, if an element, followed by its descendants). -/
def elemsOf : XNode → List XNode
  | .text _ => []
  | .elem t a cs => XNode.elem t a cs :: elemsOfF cs

/-- All elements of a forest in document order, as produced by a cheerio tag
selection over the whole tree. -/
def elemsOfF : XForest → List XNode
  | .nil => []
  | .cons n f => elemsOf n ++ elemsOfF f

end

mutual

/-- `$(n).text()`: the concatenation of all descendant text nodes. -/
def textContent : XNode → String
  | .text s => s
  | .elem _ _ cs => textContentF cs

/-- `textContent` over a forest. -/
def textContentF : XForest → String
  | .nil => ""
  | .cons n f => textContent n ++ textContentF f

end

/-- First value of the attribute with the given name, like `$(el).attr(name)`. -/
def attrOf (n : XNode) (name : String) : Option String :=
  match n with
  | .text _ => none
  | .elem _ attrs _ => (attrs.find? (fun p => p.1 = name)).map (·.2)

/-- `$(el).attr('class') || ''` — the class attribute with undefined/absent
collapsed to the empty string. -/
def classAttrOf (n : XNode) : String :=
  (attrOf n "class").getD ""

/-- `String.toLowerCase()` character by character (same as `String.toLower`,
stated over the character list so that it reduces in the kernel). -/
def strToLower (s : String) : String :=
  String.mk (s.data.map Char.toLower)

/-- The `tagName` helper: the element's name lowercased, `''` for non-elements. -/
def tagNameOf (n : XNode) : String :=
  match n with
  | .text _ => ""
  | .elem t _ _ => strToLower t

/-- The tag set of `BLOCK_SELECTOR = 'p, h1, h2, h3, h4, h5, h6, li, blockquote'`.
In `xmlMode` cheerio matches tag names case-sensitively, so the comparison is
exact. -/
def blockTagNames : List String :=
  ["p", "h1", "h2", "h3", "h4", "h5", "h6", "li", "blockquote"]

/-- Whether a node is an element matching `BLOCK_SELECTOR`. -/
def isBlockElem : XNode → Bool
  | .text _ => false
  | .elem t _ _ => blockTagNames.contains t

/-- A JavaScript word character, the `\w` class used by the `\b` boundary:
`[A-Za-z0-9_]`. -/
def isWordChar (c : Char) : Bool :=
  ('A' ≤ c && c ≤ 'Z') || ('a' ≤ c && c ≤ 'z') || ('0' ≤ c && c ≤ '9') || c = '_'

/-- The reserved translation-artifact marker class. -/
def translationMarker : String := "translated-bilingual"

/-- Whether the regex `\btranslated-bilingual\b` matches starting at the head
of `l`, given the character immediately before `l` (`none` at string start). -/
def markerMatchHere (prev : Option Char) (l : List Char) : Bool :=
  (match prev with
   | none => true
   | some c => !isWordChar c) &&
  translationMarker.data.isPrefixOf l &&
  (match l.drop translationMarker.data.length with
   | [] => true
   | c :: _ => !isWordChar c)

/-- Scan of `/\btranslated-bilingual\b/.test(cls)` over the character list. -/
def markerScan : Option Char → List Char → Bool
  | prev, [] => markerMatchHere prev []
  | prev, c :: rest => markerMatchHere prev (c :: rest) || markerScan (some c) rest

/-- `/\btranslated-bilingual\b/.test(cls)` — the test applied to a class
attribute value. -/
def hasMarker (cls : String) : Bool :=
  markerScan none cls.data

/-- All strict element descendants of a node, in document order. -/
def descendantElems : XNode → List XNode
  | .text _ => []
  | .elem _ _ cs => elemsOfF cs

/-- The strict block-element descendants of a node, `$(el).find(BLOCK_SELECTOR)`. -/
def blockDescendants (n : XNode) : List XNode :=
  (descendantElems n).filter isBlockElem

/-- The filter body of `selectLeafBlocks`: reject nodes carrying the
translation-artifact marker, then keep only nodes with no block-element
descendant. -/
def keepLeafBlock (n : XNode) : Bool :=
  if hasMarker (classAttrOf n) then false
  else (blockDescendants n).length == 0

/-- `selectLeafBlocks`: all `BLOCK_SELECTOR` matches of the document, filtered
to marker-free true leaves, in document order.  The document is the forest of
top-level nodes of the parsed tree. -/
def selectLeafBlocks (doc : XForest) : List XNode :=
  ((elemsOfF doc).filter isBlockElem).filter keepLeafBlock

/-- Every selected node passed both filters of `selectLeafBlocks`. -/
theorem mem_selectLeafBlocks {doc : XForest} {n : XNode}
    (h : n ∈ selectLeafBlocks doc) :
    isBlockElem n = true ∧ keepLeafBlock n = true := by
  unfold selectLeafBlocks at h
  have h2 := List.of_mem_filter h
  have h1 := List.of_mem_filter (List.mem_of_mem_filter h)
  exact ⟨h1, h2⟩

/-- A node carrying the translation-artifact marker in its class attribute is
never returned by `selectLeafBlocks`, on any document. -/
theorem marker_not_selected {doc : XForest} {n : XNode}
    (hm : hasMarker (classAttrOf n) = true) :
    n ∉ selectLeafBlocks doc := by
  intro h
  have := (mem_selectLeafBlocks h).2
  unfold keepLeafBlock at this
  rw [hm] at this
  simp at this

/-- C4: every node returned by the block extractor matches the
translatable-tag set, has no descendant element matching that set, and does
not bear the `translated-bilingual` marker class. -/
theorem selectLeafBlocks_sound (doc : XForest) (n : XNode)
    (h : n ∈ selectLeafBlocks doc) :
    isBlockElem n = true ∧
    hasMarker (classAttrOf n) = false ∧
    blockDescendants n = [] ∧
    ∀ d ∈ descendantElems n, isBlockElem d = false := by
  obtain ⟨hb, hk⟩ := mem_selectLeafBlocks h
  unfold keepLeafBlock at hk
  by_cases hm : hasMarker (classAttrOf n) = true
  · rw [hm] at hk; simp at hk
  · have hm' : hasMarker (classAttrOf n) = false := by
      cases hq : hasMarker (classAttrOf n)
      · rfl
      · exact absurd hq hm
    rw [hm'] at hk
    simp only [if_neg (by simp : ¬ (false = true)), beq_iff_eq,
      List.length_eq_zero] at hk
    refine ⟨hb, hm', hk, ?_⟩
    intro d hd
    by_contra hdb
    have hdb' : isBlockElem d = true := by
      cases hq : isBlockElem d
      · exact absurd hq hdb
      · rfl
    have : d ∈ blockDescendants n := List.mem_filter_of_mem hd hdb'
    rw [hk] at this
    exact absurd this (List.not_mem_nil d)

/-- Witness for C4 at a concrete document: a `div` wrapping a single `p`. -/
theorem selectLeafBlocks_sound_witness :
    XNode.elem "p" [] (.cons (.text "Hello") .nil) ∈
      selectLeafBlocks
        (.cons (.elem "div" [] (.cons (.elem "p" [] (.cons (.text "Hello") .nil)) .nil)) .nil) ∧
    (isBlockElem (XNode.elem "p" [] (.cons (.text "Hello") .nil)) = true ∧
     hasMarker (classAttrOf (XNode.elem "p" [] (.cons (.text "Hello") .nil))) = false ∧
     blockDescendants (XNode.elem "p" [] (.cons (.text "Hello") .nil)) = [] ∧
     ∀ d ∈ descendantElems (XNode.elem "p" [] (.cons (.text "Hello") .nil)),
       isBlockElem d = false) :=
  ⟨by decide,
   selectLeafBlocks_sound
     (.cons (.elem "div" [] (.cons (.elem "p" [] (.cons (.text "Hello") .nil)) .nil)) .nil)
     (XNode.elem "p" [] (.cons (.text "Hello") .nil)) (by decide)⟩

/-! ### Text normalization and defensive tag stripping

`normalizeText(s)` is
`s.replace(/\u00A0|&nbsp;|&#xa0;/g, ' ').replace(/\s+\n/g, '\n').trim()` and
`stripBlockTags(html)` is
`html.replace(/<\/?(p|div|h[1-6]|li|blockquote|ul|ol)>/gi, '').replace(/\s+\n/g, '\n').trim()`.
Each regex pass is embedded as a left-to-right scan over the character list;
the scans that jump over a matched span take a fuel argument (initialized to
the string length, enough since every match consumes at least one character)
so that they stay structurally recursive and computable in the kernel. -/

/-- The JavaScript `\s` whitespace class (also used by `String.trim`). -/
def isJsWs (c : Char) : Bool :=
  c = ' ' || c = '\t' || c = '\n' || c = '\r' || c = '\x0b' || c = '\x0c' ||
  c = '\u00A0' || c = '\u1680' ||
  ('\u2000' ≤ c && c ≤ '\u200A') ||
  c = '\u2028' || c = '\u2029' || c = '\u202F' || c = '\u205F' ||
  c = '\u3000' || c = '\uFEFF'

/-- First pass of `normalizeText`: `/\u00A0|&nbsp;|&#xa0;/g` replaced by a
space. -/
def replaceNbsp : List Char → List Char
  | [] => []
  | '\u00A0' :: rest => ' ' :: replaceNbsp rest
  | '&' :: 'n' :: 'b' :: 's' :: 'p' :: ';' :: rest => ' ' :: replaceNbsp rest
  | '&' :: '#' :: 'x' :: 'a' :: '0' :: ';' :: rest => ' ' :: replaceNbsp rest
  | c :: rest => c :: replaceNbsp rest

/-- Length of the greedy match of `/\s+\n/` at the head of the list, if any. -/
def wsNlMatchLen : List Char → Option Nat
  | c :: d :: rest =>
      if isJsWs c then
        match wsNlMatchLen (d :: rest) with
        | some k => some (k + 1)
        | none => if d = '\n' then some 2 else none
      else none
  | _ => none

/-- Any `/\s+\n/` match spans at least two characters. -/
theorem wsNlMatchLen_ge_two : ∀ {l : List Char} {k : Nat},
    wsNlMatchLen l = some k → 2 ≤ k := by
  intro l
  induction l with
  | nil => intro k h; simp [wsNlMatchLen] at h
  | cons c rest ih =>
    intro k h
    cases rest with
    | nil => simp [wsNlMatchLen] at h
    | cons d rest' =>
      simp only [wsNlMatchLen] at h
      by_cases hc : isJsWs c = true
      · rw [if_pos hc] at h
        cases hm : wsNlMatchLen (d :: rest') with
        | some k' =>
          rw [hm] at h
          cases h
          have := ih hm
          omega
        | none =>
          rw [hm] at h
          by_cases hd : d = '\n'
          · rw [if_pos hd] at h; cases h; omega
          · rw [if_neg hd] at h; cases h
      · rw [if_neg hc] at h; cases h

/-- The global replace `/\s+\n/g → '\n'`, with fuel. -/
def replaceWsNlGo : Nat → List Char → List Char
  | 0, l => l
  | _ + 1, [] => []
  | fuel + 1, c :: rest =>
      match wsNlMatchLen (c :: rest) with
      | some k => '\n' :: replaceWsNlGo fuel ((c :: rest).drop k)
      | none => c :: replaceWsNlGo fuel rest

/-- `.replace(/\s+\n/g, '\n')` on a character list. -/
def replaceWsNl (l : List Char) : List Char :=
  replaceWsNlGo l.length l

/-- JavaScript `String.trim()`: strip `\s` characters from both ends. -/
def jsTrim (l : List Char) : List Char :=
  ((l.dropWhile isJsWs).reverse.dropWhile isJsWs).reverse

/-- `normalizeText`: entity/nbsp normalization, whitespace-before-newline
collapse, then trim. -/
def normalizeText (s : String) : String :=
  String.mk (jsTrim (replaceWsNl (replaceNbsp s.data)))

/-- The tag-name alternatives of the strip regex, in alternation order:
`p|div|h[1-6]|li|blockquote|ul|ol`. -/
def stripTagNames : List (List Char) :=
  ["p", "div", "h1", "h2", "h3", "h4", "h5", "h6", "li", "blockquote",
   "ul", "ol"].map String.data

/-- Case-insensitively consume a tag name followed by `>`; returns the number
of characters consumed. -/
def consumeNameGt : List Char → List Char → Option Nat
  | [], '>' :: _ => some 1
  | [], _ => none
  | _ :: _, [] => none
  | c :: cs, d :: ds =>
      if c.toLower = d.toLower then (consumeNameGt cs ds).map (· + 1) else none

/-- Try the tag-name alternatives in order. -/
def tryTagNames : List (List Char) → List Char → Option Nat
  | [], _ => none
  | n :: ns, l =>
      match consumeNameGt n l with
      | some k => some k
      | none => tryTagNames ns l

/-- Length of the match of `/<\/?(p|div|h[1-6]|li|blockquote|ul|ol)>/i` at the
head of the list, if any. -/
def matchBlockTagAt : List Char → Option Nat
  | '<' :: '/' :: rest => (tryTagNames stripTagNames rest).map (· + 2)
  | '<' :: rest => (tryTagNames stripTagNames rest).map (· + 1)
  | _ => none

/-- The global replace removing block-level tags, with fuel. -/
def removeBlockTagsGo : Nat → List Char → List Char
  | 0, l => l
  | _ + 1, [] => []
  | fuel + 1, c :: rest =>
      match matchBlockTagAt (c :: rest) with
      | some k => removeBlockTagsGo fuel ((c :: rest).drop k)
      | none => c :: removeBlockTagsGo fuel rest

/-- `.replace(/<\/?(p|div|h[1-6]|li|blockquote|ul|ol)>/gi, '')`. -/
def removeBlockTags (l : List Char) : List Char :=
  removeBlockTagsGo l.length l

/-- `stripBlockTags`: defensively remove block-level markup from a result
string, collapse whitespace-before-newline, and trim. -/
def stripBlockTags (html : String) : String :=
  String.mk (jsTrim (replaceWsNl (removeBlockTags html.data)))

/-! ### The applier: `replaceBlock` and `insertBilingual` -/

/-- The two translation modes. -/
inductive TranslationMode where
  | replace
  | bilingual
deriving DecidableEq

/-- Concatenation of forests. -/
def XForest.append : XForest → XForest → XForest
  | .nil, g => g
  | .cons n f, g => .cons n (XForest.append f g)

theorem elemsOfF_append : (f g : XForest) →
    elemsOfF (f.append g) = elemsOfF f ++ elemsOfF g
  | .nil, g => by simp [XForest.append, elemsOfF]
  | .cons n f, g => by simp [XForest.append, elemsOfF, elemsOfF_append f g]

/-- Characters a tag name may continue with. -/
def isTagNameChar (c : Char) : Bool :=
  isWordChar c || c = '-' || c = ':'

/-- Parse one opening tag at the head of `l` (the `'<'` already consumed):
the tag name, whether the tag is self-closing, and the remainder after the
`'>'`.  `none` when no tag name or no `'>'` follows (the `'<'` is then
literal text).  Attribute text is skipped: none of the verified statements
inspect a payload element's attributes. -/
def parseTagHead (l : List Char) : Option (String × Bool × List Char) :=
  let name := l.takeWhile isTagNameChar
  if name.isEmpty then none
  else
    let rest := l.dropWhile isTagNameChar
    let attrsPart := rest.takeWhile (fun c => !(c = '>'))
    match rest.dropWhile (fun c => !(c = '>')) with
    | '>' :: rest2 => some (String.mk name, attrsPart.getLast? == some '/', rest2)
    | _ => none

/-- Consume a closing tag `</…>` at the head of `l`, if present. -/
def consumeCloseTag (l : List Char) : List Char :=
  match l with
  | '<' :: '/' :: rest =>
      (match rest.dropWhile (fun c => !(c = '>')) with
       | '>' :: rest2 => rest2
       | _ => [])
  | _ => l

/-- A model of the fragment parser behind cheerio's `.html(string)` (and
`.append`/`.after`): text runs become text nodes, `<name …>` opens an element
whose children are parsed until the matching close tag, `<name …/>` is an
empty element, and a stray `'<'` is literal text.  Fueled: every recursion
step follows at least one consumed character, so `length + 1` fuel always
suffices. -/
def parseNodesGo : Nat → List Char → List XNode × List Char
  | 0, l => ([], l)
  | fuel + 1, l =>
    match l with
    | [] => ([], [])
    | c :: rest =>
      if c = '<' then
        match rest with
        | '/' :: _ => ([], c :: rest)
        | _ =>
          match parseTagHead rest with
          | some (name, selfClosing, rest1) =>
              if selfClosing then
                let r := parseNodesGo fuel rest1
                (XNode.elem name [] .nil :: r.1, r.2)
              else
                let rc := parseNodesGo fuel rest1
                let rest2 := consumeCloseTag rc.2
                let rs := parseNodesGo fuel rest2
                (XNode.elem name [] (XForest.ofList rc.1) :: rs.1, rs.2)
          | none =>
              let r := parseNodesGo fuel rest
              (XNode.text "<" :: r.1, r.2)
      else
        let txt := (c :: rest).takeWhile (fun ch => !(ch = '<'))
        let r := parseNodesGo fuel ((c :: rest).dropWhile (fun ch => !(ch = '<')))
        (XNode.text (String.mk txt) :: r.1, r.2)

/-- Parse a serialized fragment into a forest of nodes. -/
def parseFragment (s : String) : XForest :=
  XForest.ofList (parseNodesGo (s.length + 1) s.data).1

/-- A fragment that parses as plain text: no tag opener and no entity
reference, so the parse is a single text node (or nothing, when empty). -/
def plainTextFragment (s : String) : Bool :=
  s.data.all (fun c => !(c = '<' || c = '&'))

/-- `replaceBlock`: `$(node).html(safe)` with `safe = stripBlockTags(translated)`
— the node's inner content is replaced by cheerio's parse of the stripped
result string. -/
def replaceBlock (node : XNode) (translated : String) : XNode :=
  match node with
  | .text s => .text s
  | .elem t a _ => .elem t a (parseFragment (stripBlockTags translated))

/-- The `<div class="translated-bilingual">${safe}</div>` template. -/
def transDivNode (translated : String) : XNode :=
  .elem "div" [("class", translationMarker)]
    (.cons (.text (stripBlockTags translated)) .nil)

/-- The `<p class="translated-bilingual">${safe}</p>` template. -/
def transParaNode (translated : String) : XNode :=
  .elem "p" [("class", translationMarker)]
    (.cons (.text (stripBlockTags translated)) .nil)

/-- The tag names matched by `/^h[1-6]$/`. -/
def headingTagNames : List String := ["h1", "h2", "h3", "h4", "h5", "h6"]

/-- Where `insertBilingual` puts the translation node: appended as the last
child of the block (`$(node).append(...)`) or inserted as the sibling
immediately after it (`$(node).after(...)`). -/
inductive BilingualInsertion where
  | appendInside (newChild : XNode)
  | insertAfter (sibling : XNode)
deriving DecidableEq

/-- `insertBilingual`: tag-aware placement of the translation node. -/
def insertBilingual (node : XNode) (translated : String) : BilingualInsertion :=
  let t := tagNameOf node
  if t = "li" then
    .appendInside (transDivNode translated)
  else if t = "blockquote" then
    .appendInside (transParaNode translated)
  else if headingTagNames.contains t then
    .insertAfter (transDivNode translated)
  else
    .insertAfter (transParaNode translated)

/-- The node that `insertBilingual` creates. -/
def insertedNode (node : XNode) (translated : String) : XNode :=
  match insertBilingual node translated with
  | .appendInside c => c
  | .insertAfter s => s

/-- Append a child to an element's children. -/
def appendChildNode (node : XNode) (c : XNode) : XNode :=
  match node with
  | .text s => .text s
  | .elem t a cs => .elem t a (cs.append (.cons c .nil))

/-- The effect of `insertBilingual` on the document, at the block's position
in its parent's child list: the block alone (mutated by the append), or the
block followed by the new sibling. -/
def applyBilingualNode (node : XNode) (translated : String) : List XNode :=
  match insertBilingual node translated with
  | .appendInside c => [appendChildNode node c]
  | .insertAfter s => [node, s]

/-- One block's mutation in the apply loop (`translationMode === 'replace' ?
replaceBlock : insertBilingual`). -/
def applyOne (mode : TranslationMode) (node : XNode) (t : String) : List XNode :=
  match mode with
  | .replace => [replaceBlock node t]
  | .bilingual => applyBilingualNode node t

/-- The predicate selecting the blocks that receive a translation: a
`selectLeafBlocks` match whose normalized text is non-empty (step 3 of the
pipeline drops empty ones). -/
def isFilteredLeafBlock (n : XNode) : Bool :=
  isBlockElem n && keepLeafBlock n &&
    decide ((normalizeText (textContent n)).length > 0)

mutual

/-- Rebuild a node while applying the ordered translation list to each
filtered leaf block in document order (the structural counterpart of the
source's mutation of the blocks collected before the chunk loop). -/
def applyNode (mode : TranslationMode) (n : XNode) (ts : List String) :
    List XNode × List String :=
  if isFilteredLeafBlock n then
    match ts with
    | t :: ts' => (applyOne mode n t, ts')
    | [] => (applyOne mode n "", [])
  else
    match n with
    | .text s => ([.text s], ts)
    | .elem t a cs =>
        let r := applyForest mode cs ts
        ([.elem t a (XForest.ofList r.1)], r.2)

/-- `applyNode` over a forest, threading the translation list. -/
def applyForest (mode : TranslationMode) (f : XForest) (ts : List String) :
    List XNode × List String :=
  match f with
  | .nil => ([], ts)
  | .cons n f' =>
      let r1 := applyNode mode n ts
      let r2 := applyForest mode f' r1.2
      (r1.1 ++ r2.1, r2.2)

end

/-- `insertBilingual` always creates one of the two marker-bearing template
nodes. -/
theorem insertedNode_cases (node : XNode) (tr : String) :
    insertedNode node tr = transDivNode tr ∨ insertedNode node tr = transParaNode tr := by
  by_cases h1 : tagNameOf node = "li"
  · left; simp [insertedNode, insertBilingual, h1]
  · by_cases h2 : tagNameOf node = "blockquote"
    · right; simp [insertedNode, insertBilingual, h1, h2]
    · by_cases h3 : tagNameOf node ∈ headingTagNames
      · left; simp [insertedNode, insertBilingual, h1, h2, h3]
      · right; simp [insertedNode, insertBilingual, h1, h2, h3]

/-- The class attribute of both template nodes is exactly the marker. -/
theorem classAttrOf_insertedNode (node : XNode) (tr : String) :
    classAttrOf (insertedNode node tr) = translationMarker := by
  rcases insertedNode_cases node tr with h | h <;>
    rw [h] <;> rfl

/-- C7: in bilingual mode, a list item's translation is appended inside the
same list item (hence a descendant of it), a blockquote's is appended inside
the blockquote, a heading's or an ordinary paragraph's is the sibling
immediately following the block; every inserted node carries the
translation-artifact marker and is never re-selected by the block extractor
on any document. -/
theorem insertBilingual_placement (tag : String) (attrs : List (String × String))
    (cs : XForest) (tr : String) :
    (tagNameOf (XNode.elem tag attrs cs) = "li" →
      applyBilingualNode (XNode.elem tag attrs cs) tr
        = [XNode.elem tag attrs (cs.append (.cons (transDivNode tr) .nil))] ∧
      transDivNode tr ∈
        descendantElems (appendChildNode (XNode.elem tag attrs cs) (transDivNode tr))) ∧
    (tagNameOf (XNode.elem tag attrs cs) = "blockquote" →
      applyBilingualNode (XNode.elem tag attrs cs) tr
        = [XNode.elem tag attrs (cs.append (.cons (transParaNode tr) .nil))] ∧
      transParaNode tr ∈
        descendantElems (appendChildNode (XNode.elem tag attrs cs) (transParaNode tr))) ∧
    (headingTagNames.contains (tagNameOf (XNode.elem tag attrs cs)) = true →
      applyBilingualNode (XNode.elem tag attrs cs) tr
        = [XNode.elem tag attrs cs, transDivNode tr]) ∧
    (tagNameOf (XNode.elem tag attrs cs) = "p" →
      applyBilingualNode (XNode.elem tag attrs cs) tr
        = [XNode.elem tag attrs cs, transParaNode tr]) ∧
    hasMarker (classAttrOf (insertedNode (XNode.elem tag attrs cs) tr)) = true ∧
    ∀ doc : XForest,
      insertedNode (XNode.elem tag attrs cs) tr ∉ selectLeafBlocks doc := by
  have hmark : hasMarker (classAttrOf (insertedNode (XNode.elem tag attrs cs) tr)) = true := by
    rw [classAttrOf_insertedNode]
    decide
  refine ⟨?_, ?_, ?_, ?_, hmark, fun doc => marker_not_selected hmark⟩
  · intro h
    constructor
    · simp [applyBilingualNode, insertBilingual, h, appendChildNode]
    · show transDivNode tr ∈ elemsOfF (cs.append (.cons (transDivNode tr) .nil))
      rw [elemsOfF_append]
      refine List.mem_append_right _ ?_
      simp [elemsOfF, elemsOf, transDivNode]
  · intro h
    have hne : tagNameOf (XNode.elem tag attrs cs) ≠ "li" := by rw [h]; decide
    constructor
    · simp [applyBilingualNode, insertBilingual, hne, h, appendChildNode]
    · show transParaNode tr ∈ elemsOfF (cs.append (.cons (transParaNode tr) .nil))
      rw [elemsOfF_append]
      refine List.mem_append_right _ ?_
      simp [elemsOfF, elemsOf, transParaNode]
  · intro h
    have hmem : tagNameOf (XNode.elem tag attrs cs) ∈ headingTagNames := by
      simpa using h
    have h1 : tagNameOf (XNode.elem tag attrs cs) ≠ "li" := by
      intro he; rw [he] at hmem; simp [headingTagNames] at hmem
    have h2 : tagNameOf (XNode.elem tag attrs cs) ≠ "blockquote" := by
      intro he; rw [he] at hmem; simp [headingTagNames] at hmem
    simp [applyBilingualNode, insertBilingual, h1, h2, hmem]
  · intro h
    have h1 : tagNameOf (XNode.elem tag attrs cs) ≠ "li" := by rw [h]; decide
    have h2 : tagNameOf (XNode.elem tag attrs cs) ≠ "blockquote" := by rw [h]; decide
    have h3 : tagNameOf (XNode.elem tag attrs cs) ∉ headingTagNames := by
      rw [h]; decide
    simp [applyBilingualNode, insertBilingual, h1, h2, h3]

/-- Witness for C7 at concrete blocks: a list item and a paragraph. -/
theorem insertBilingual_placement_witness :
    (applyBilingualNode (XNode.elem "li" [] .nil) "T"
        = [XNode.elem "li" [] (XForest.nil.append (.cons (transDivNode "T") .nil))] ∧
     transDivNode "T" ∈
       descendantElems (appendChildNode (XNode.elem "li" [] .nil) (transDivNode "T"))) ∧
    (applyBilingualNode (XNode.elem "p" [] .nil) "T"
        = [XNode.elem "p" [] .nil, transParaNode "T"]) :=
  ⟨(insertBilingual_placement "li" [] .nil "T").1 (by decide),
   (insertBilingual_placement "p" [] .nil "T").2.2.2.1 (by decide)⟩

/-- Number of positions at which `pat` occurs as a contiguous substring of
`hay`. -/
def occCount (hay pat : List Char) : Nat :=
  ((List.range (hay.length + 1)).filter (fun i => pat.isPrefixOf (hay.drop i))).length

/-- A non-empty string occurs in itself exactly once. -/
theorem occCount_self (pat : List Char) (h : pat ≠ []) : occCount pat pat = 1 := by
  unfold occCount
  have hcong : ∀ i ∈ List.range (pat.length + 1),
      (pat.isPrefixOf (pat.drop i)) = (i == 0) := by
    intro i _
    cases i with
    | zero =>
      simp only [List.drop_zero, beq_self_eq_true]
      exact List.isPrefixOf_iff_prefix.mpr (List.prefix_refl pat)
    | succ j =>
      have hne : ((j + 1 : Nat) == 0) = false := by simp
      rw [hne]
      by_contra hpre
      have hpre' : pat.isPrefixOf (pat.drop (j + 1)) = true := by
        cases hq : pat.isPrefixOf (pat.drop (j + 1))
        · exact absurd hq hpre
        · rfl
      have hp := List.isPrefixOf_iff_prefix.mp hpre'
      have hle := hp.length_le
      have hlen : (pat.drop (j + 1)).length = pat.length - (j + 1) := by
        simp
      rw [hlen] at hle
      have hpos : 0 < pat.length := List.length_pos.mpr h
      omega
  rw [List.filter_congr hcong, List.range_succ_eq_map]
  have hnil : ((List.range pat.length).map Nat.succ).filter (fun i => i == 0) = [] := by
    rw [List.filter_eq_nil_iff]
    intro a ha
    obtain ⟨x, _, hx⟩ := List.mem_map.mp ha
    subst hx
    simp
  simp [hnil]

theorem parseNodesGo_nil : ∀ fuel : Nat, parseNodesGo fuel [] = ([], [])
  | 0 => rfl
  | _ + 1 => rfl

/-- A character list containing no `'<'` parses as a single text node. -/
theorem parseNodesGo_plain (fuel : Nat) (c : Char) (rest : List Char)
    (hall : ∀ a ∈ c :: rest, ¬ a = '<') :
    parseNodesGo (fuel + 1) (c :: rest)
      = ([XNode.text (String.mk (c :: rest))], []) := by
  have hcne : ¬ c = '<' := hall c (List.mem_cons_self c rest)
  have htake : (c :: rest).takeWhile (fun ch => !(ch = '<')) = c :: rest := by
    rw [List.takeWhile_eq_self_iff]
    intro a ha
    simp [hall a ha]
  have hdrop : (c :: rest).dropWhile (fun ch => !(ch = '<')) = [] := by
    rw [List.dropWhile_eq_nil_iff]
    intro a ha
    simp [hall a ha]
  simp only [parseNodesGo]
  rw [if_neg hcne, htake, hdrop, parseNodesGo_nil]

/-- A markup-free fragment round-trips through the parser: its text content
is the fragment itself. -/
theorem parseFragment_plainText (s : String) (h : plainTextFragment s = true) :
    textContentF (parseFragment s) = s := by
  unfold parseFragment
  cases hs : s.data with
  | nil =>
    have hempty : s = "" := String.ext (by rw [hs])
    rw [parseNodesGo_nil, hempty]
    rfl
  | cons c rest =>
    have hall : ∀ a ∈ c :: rest, ¬ a = '<' := by
      intro a ha
      have h2 := List.all_eq_true.mp h a (by rw [hs]; exact ha)
      simp only [Bool.not_eq_true', Bool.or_eq_false_iff, decide_eq_false_iff_not] at h2
      exact h2.1
    rw [parseNodesGo_plain s.length c rest hall]
    show textContentF (XForest.ofList [XNode.text (String.mk (c :: rest))]) = s
    have hmk : String.mk (c :: rest) = s := String.ext (by rw [hs])
    simp [XForest.ofList, textContentF, textContent, hmk]

/-- Counterexample to C8: for the result string `a<em>b</em>`, whose inline
markup survives `stripBlockTags`, the fragment parse behind `.html(safe)`
turns the markup into a live element, so the block's rendered text content is
`ab` — not the stripped result string. -/
theorem replace_residual_markup_counterexample :
    stripBlockTags "a<em>b</em>" = "a<em>b</em>" ∧
    textContent (replaceBlock (.elem "p" [] (.cons (.text "old") .nil)) "a<em>b</em>")
      = "ab" ∧
    textContent (replaceBlock (.elem "p" [] (.cons (.text "old") .nil)) "a<em>b</em>")
      ≠ stripBlockTags "a<em>b</em>" :=
  ⟨by decide, by decide, by decide⟩

/-- C8 (amended): in replace mode, for every block of every tag
classification and every result string whose stripped form contains no
residual markup (no tag opener, no entity reference — what the 4.4
plain-text contract guarantees), the block's content becomes the parse of
the stripped result string and its rendered text content equals that string,
appearing exactly once. -/
theorem replaceBlock_roundtrip (tag : String) (attrs : List (String × String))
    (cs : XForest) (tr : String)
    (h : plainTextFragment (stripBlockTags tr) = true) :
    replaceBlock (.elem tag attrs cs) tr
      = .elem tag attrs (parseFragment (stripBlockTags tr)) ∧
    textContent (replaceBlock (.elem tag attrs cs) tr) = stripBlockTags tr ∧
    ((stripBlockTags tr).data ≠ [] →
      occCount (textContent (replaceBlock (.elem tag attrs cs) tr)).data
        (stripBlockTags tr).data = 1) := by
  have ht : textContent (replaceBlock (.elem tag attrs cs) tr) = stripBlockTags tr := by
    show textContentF (parseFragment (stripBlockTags tr)) = stripBlockTags tr
    exact parseFragment_plainText _ h
  refine ⟨rfl, ht, ?_⟩
  intro hne
  rw [ht]
  exact occCount_self _ hne

/-- Witness for C8 at the result `<p>Hi</p>`: the bare block tags are
stripped, the remainder `Hi` is markup-free, and the rendered text is `Hi`,
exactly once. -/
theorem replaceBlock_roundtrip_witness :
    plainTextFragment (stripBlockTags "<p>Hi</p>") = true ∧
    (replaceBlock (.elem "p" [] (.cons (.text "old") .nil)) "<p>Hi</p>"
        = .elem "p" [] (parseFragment (stripBlockTags "<p>Hi</p>")) ∧
     textContent (replaceBlock (.elem "p" [] (.cons (.text "old") .nil)) "<p>Hi</p>")
        = stripBlockTags "<p>Hi</p>" ∧
     ((stripBlockTags "<p>Hi</p>").data ≠ [] →
       occCount (textContent (replaceBlock
           (.elem "p" [] (.cons (.text "old") .nil)) "<p>Hi</p>")).data
         (stripBlockTags "<p>Hi</p>").data = 1)) :=
  ⟨by decide,
   replaceBlock_roundtrip "p" [] (.cons (.text "old") .nil) "<p>Hi</p>" (by decide)⟩

/-! ### The chunker

The greedy chunking loop of `translateEpub` (step 4): a single left-to-right
pass accumulating `{ nodes, texts, charCount }`, closing the current chunk
when adding the next block would exceed `MAX_CHARS_PER_CHUNK` or the optional
block-count cap, and closing immediately after adding when the count reaches
the budget. -/

/-- A JavaScript number, as far as the `chunkSize` handling observes it. -/
inductive JSNum where
  | nan
  | posInf
  | negInf
  | finite (x : ℚ)
deriving DecidableEq

/-- `Number.isFinite(chunkSize)`. -/
def JSNum.isFinite : JSNum → Bool
  | .finite _ => true
  | _ => false

/-- `chunkSize > 0` under JavaScript comparison (false for NaN). -/
def JSNum.isPos : JSNum → Bool
  | .nan => false
  | .posInf => true
  | .negInf => false
  | .finite x => decide (0 < x)

/-- `MAX_PARAS_PER_CHUNK = Number.isFinite(chunkSize) && chunkSize > 0 ?
chunkSize : Number.POSITIVE_INFINITY`; `none` models the infinite (uncapped)
value. -/
def maxParasPerChunk (chunkSize : JSNum) : Option ℚ :=
  if chunkSize.isFinite && chunkSize.isPos then
    match chunkSize with
    | .finite x => some x
    | _ => none
  else none

/-- `MAX_CHARS_PER_CHUNK = 20000`, the fixed character budget. -/
def MAX_CHARS_PER_CHUNK : Nat := 20000

/-- A filtered block, `{ node, text }` (step 3 of the pipeline keeps the leaf
node together with its non-empty normalized text). -/
structure Fblock where
  node : XNode
  text : String
deriving DecidableEq

/-- A chunk, `{ nodes, texts, charCount }`. -/
structure Chunk where
  nodes : List XNode
  texts : List String
  charCount : Nat
deriving DecidableEq

/-- The fresh accumulator `{ nodes: [], texts: [], charCount: 0 }`. -/
def emptyChunk : Chunk := ⟨[], [], 0⟩

/-- `cur.nodes.length >= MAX_PARAS_PER_CHUNK` (`n >= Infinity` is false). -/
def willExceedByCount (mp : Option ℚ) (n : Nat) : Bool :=
  match mp with
  | none => false
  | some q => decide ((n : ℚ) ≥ q)

/-- The first conditional of the loop body:
`if ((willExceedByChars || willExceedByCount) && cur.nodes.length > 0)`,
closing the current chunk before the block is added. -/
def maybeClose (mp : Option ℚ) (budget : Nat) (acc : List Chunk × Chunk)
    (b : Fblock) : List Chunk × Chunk :=
  if ((acc.2.charCount > 0 ∧ acc.2.charCount + b.text.length + 2 > budget) ∨
      willExceedByCount mp acc.2.nodes.length = true) ∧ acc.2.nodes.length > 0
  then (acc.1 ++ [acc.2], emptyChunk)
  else acc

/-- `cur.nodes.push(node); cur.texts.push(text); cur.charCount += text.length + 2`. -/
def addToCur (c : Chunk) (b : Fblock) : Chunk :=
  ⟨c.nodes ++ [b.node], c.texts ++ [b.text], c.charCount + b.text.length + 2⟩

/-- The second conditional: `if (cur.charCount >= MAX_CHARS_PER_CHUNK)`,
closing the chunk right after the block was added. -/
def pushIfFull (budget : Nat) (acc : List Chunk × Chunk) : List Chunk × Chunk :=
  if acc.2.charCount ≥ budget then (acc.1 ++ [acc.2], emptyChunk) else acc

/-- One iteration of the chunking loop body. -/
def chunkStep (mp : Option ℚ) (budget : Nat) (acc : List Chunk × Chunk)
    (b : Fblock) : List Chunk × Chunk :=
  let a1 := maybeClose mp budget acc b
  pushIfFull budget (a1.1, addToCur a1.2 b)

/-- The chunking loop: fold the step over the filtered blocks, then push the
non-empty tail chunk. -/
def buildChunks (budget : Nat) (mp : Option ℚ) (blocks : List Fblock) : List Chunk :=
  let r := blocks.foldl (chunkStep mp budget) ([], emptyChunk)
  if r.2.nodes.length > 0 then r.1 ++ [r.2] else r.1

/-- A chunk's total character count: each block's text length plus the
2-character separator. -/
def chunkCharTotal (ts : List String) : Nat :=
  (ts.map (fun t => t.length + 2)).sum

/-- Well-formedness of a completed (pushed) chunk. -/
def chunkWF (budget : Nat) (c : Chunk) : Prop :=
  c.charCount = chunkCharTotal c.texts ∧
  c.nodes.length = c.texts.length ∧
  c.texts ≠ [] ∧
  (c.charCount ≤ budget ∨ c.texts.length = 1)

/-- Loop invariant of the in-progress accumulator. -/
def curWF (budget : Nat) (c : Chunk) : Prop :=
  c = emptyChunk ∨
  (c.charCount = chunkCharTotal c.texts ∧
   c.nodes.length = c.texts.length ∧
   c.texts ≠ [] ∧
   c.charCount < budget)

theorem chunkCharTotal_append (ts : List String) (t : String) :
    chunkCharTotal (ts ++ [t]) = chunkCharTotal ts + (t.length + 2) := by
  simp [chunkCharTotal]

theorem chunkCharTotal_ge_two {ts : List String} (h : ts ≠ []) :
    2 ≤ chunkCharTotal ts := by
  cases ts with
  | nil => exact absurd rfl h
  | cons t ts' => simp [chunkCharTotal]; omega

/-- `maybeClose` preserves the invariants, leaves the flattened content
unchanged, and guarantees that its output accumulator either is fresh or can
absorb the incoming block within the budget. -/
theorem maybeClose_spec (mp : Option ℚ) (budget : Nat) (chunks : List Chunk)
    (cur : Chunk) (b : Fblock)
    (hc : ∀ c ∈ chunks, chunkWF budget c) (hcur : curWF budget cur) :
    (∀ c ∈ (maybeClose mp budget (chunks, cur) b).1, chunkWF budget c) ∧
    ((maybeClose mp budget (chunks, cur) b).2 = emptyChunk ∨
     ((maybeClose mp budget (chunks, cur) b).2.charCount
        = chunkCharTotal (maybeClose mp budget (chunks, cur) b).2.texts ∧
      (maybeClose mp budget (chunks, cur) b).2.nodes.length
        = (maybeClose mp budget (chunks, cur) b).2.texts.length ∧
      (maybeClose mp budget (chunks, cur) b).2.texts ≠ [] ∧
      (maybeClose mp budget (chunks, cur) b).2.charCount + b.text.length + 2 ≤ budget)) ∧
    ((maybeClose mp budget (chunks, cur) b).1.flatMap Chunk.texts
       ++ (maybeClose mp budget (chunks, cur) b).2.texts
     = chunks.flatMap Chunk.texts ++ cur.texts) ∧
    ((maybeClose mp budget (chunks, cur) b).1.flatMap Chunk.nodes
       ++ (maybeClose mp budget (chunks, cur) b).2.nodes
     = chunks.flatMap Chunk.nodes ++ cur.nodes) := by
  classical
  unfold maybeClose
  by_cases hfire : ((cur.charCount > 0 ∧ cur.charCount + b.text.length + 2 > budget) ∨
      willExceedByCount mp cur.nodes.length = true) ∧ cur.nodes.length > 0
  · rw [if_pos hfire]
    have hcur' : cur.charCount = chunkCharTotal cur.texts ∧
        cur.nodes.length = cur.texts.length ∧ cur.texts ≠ [] ∧
        cur.charCount < budget := by
      rcases hcur with he | hr
      · rw [he] at hfire; simp [emptyChunk] at hfire
      · exact hr
    refine ⟨?_, Or.inl rfl, by simp [emptyChunk], by simp [emptyChunk]⟩
    intro c hcmem
    rcases List.mem_append.mp hcmem with hl | hr
    · exact hc c hl
    · rw [List.mem_singleton.mp hr]
      exact ⟨hcur'.1, hcur'.2.1, hcur'.2.2.1, Or.inl (le_of_lt hcur'.2.2.2)⟩
  · rw [if_neg hfire]
    rcases hcur with he | hr
    · exact ⟨hc, Or.inl he, rfl, rfl⟩
    · refine ⟨hc, Or.inr ⟨hr.1, hr.2.1, hr.2.2.1, ?_⟩, rfl, rfl⟩
      show cur.charCount + b.text.length + 2 ≤ budget
      have hpos : cur.nodes.length > 0 := by
        rw [hr.2.1]; exact List.length_pos.mpr hr.2.2.1
      have hcpos : cur.charCount > 0 := by
        rw [hr.1]
        have := chunkCharTotal_ge_two hr.2.2.1
        omega
      by_contra hgt
      exact hfire ⟨Or.inl ⟨hcpos, by omega⟩, hpos⟩

/-- The chunk-loop body preserves the invariants and appends exactly the
consumed block to the flattened output. -/
theorem chunkStep_spec (mp : Option ℚ) (budget : Nat) (chunks : List Chunk)
    (cur : Chunk) (b : Fblock)
    (hc : ∀ c ∈ chunks, chunkWF budget c) (hcur : curWF budget cur) :
    (∀ c ∈ (chunkStep mp budget (chunks, cur) b).1, chunkWF budget c) ∧
    curWF budget (chunkStep mp budget (chunks, cur) b).2 ∧
    ((chunkStep mp budget (chunks, cur) b).1.flatMap Chunk.texts
       ++ (chunkStep mp budget (chunks, cur) b).2.texts
     = chunks.flatMap Chunk.texts ++ cur.texts ++ [b.text]) ∧
    ((chunkStep mp budget (chunks, cur) b).1.flatMap Chunk.nodes
       ++ (chunkStep mp budget (chunks, cur) b).2.nodes
     = chunks.flatMap Chunk.nodes ++ cur.nodes ++ [b.node]) := by
  classical
  obtain ⟨h1, h2, h3, h4⟩ := maybeClose_spec mp budget chunks cur b hc hcur
  set a1 := maybeClose mp budget (chunks, cur) b with ha1
  set cur2 := addToCur a1.2 b with hcur2
  have hcur2wf : cur2.charCount = chunkCharTotal cur2.texts ∧
      cur2.nodes.length = cur2.texts.length ∧ cur2.texts ≠ [] ∧
      (cur2.charCount ≤ budget ∨ cur2.texts.length = 1) := by
    rcases h2 with he | hr
    · constructor
      · rw [hcur2, he]; simp [addToCur, emptyChunk, chunkCharTotal]
      · refine ⟨?_, ?_, Or.inr ?_⟩ <;> rw [hcur2, he] <;> simp [addToCur, emptyChunk]
    · constructor
      · rw [hcur2]; simp only [addToCur, chunkCharTotal_append, hr.1]; omega
      · refine ⟨?_, ?_, Or.inl ?_⟩
        · rw [hcur2]; simp [addToCur, hr.2.1]
        · rw [hcur2]; simp [addToCur]
        · rw [hcur2]; simp only [addToCur]
          have := hr.2.2.2
          omega
  have hflat2 : a1.1.flatMap Chunk.texts ++ cur2.texts
      = chunks.flatMap Chunk.texts ++ cur.texts ++ [b.text] := by
    rw [hcur2]; simp only [addToCur]
    rw [← List.append_assoc, h3, List.append_assoc]
  have hflat2n : a1.1.flatMap Chunk.nodes ++ cur2.nodes
      = chunks.flatMap Chunk.nodes ++ cur.nodes ++ [b.node] := by
    rw [hcur2]; simp only [addToCur]
    rw [← List.append_assoc, h4, List.append_assoc]
  show (∀ c ∈ (pushIfFull budget (a1.1, cur2)).1, chunkWF budget c) ∧
    curWF budget (pushIfFull budget (a1.1, cur2)).2 ∧
    ((pushIfFull budget (a1.1, cur2)).1.flatMap Chunk.texts
       ++ (pushIfFull budget (a1.1, cur2)).2.texts
     = chunks.flatMap Chunk.texts ++ cur.texts ++ [b.text]) ∧
    ((pushIfFull budget (a1.1, cur2)).1.flatMap Chunk.nodes
       ++ (pushIfFull budget (a1.1, cur2)).2.nodes
     = chunks.flatMap Chunk.nodes ++ cur.nodes ++ [b.node])
  unfold pushIfFull
  by_cases hfull : cur2.charCount ≥ budget
  · rw [if_pos hfull]
    refine ⟨?_, Or.inl rfl, ?_, ?_⟩
    · intro c hcmem
      rcases List.mem_append.mp hcmem with hl | hr
      · exact h1 c hl
      · rw [List.mem_singleton.mp hr]
        exact ⟨hcur2wf.1, hcur2wf.2.1, hcur2wf.2.2.1, hcur2wf.2.2.2⟩
    · simpa [emptyChunk] using hflat2
    · simpa [emptyChunk] using hflat2n
  · rw [if_neg hfull]
    exact ⟨h1, Or.inr ⟨hcur2wf.1, hcur2wf.2.1, hcur2wf.2.2.1,
      (by omega : cur2.charCount < budget)⟩, hflat2, hflat2n⟩

/-- Fold extension of `chunkStep_spec` over the whole block list. -/
theorem chunkFold_spec (mp : Option ℚ) (budget : Nat) :
    ∀ (bs : List Fblock) (chunks : List Chunk) (cur : Chunk),
    (∀ c ∈ chunks, chunkWF budget c) → curWF budget cur →
    (∀ c ∈ (bs.foldl (chunkStep mp budget) (chunks, cur)).1, chunkWF budget c) ∧
    curWF budget (bs.foldl (chunkStep mp budget) (chunks, cur)).2 ∧
    ((bs.foldl (chunkStep mp budget) (chunks, cur)).1.flatMap Chunk.texts
       ++ (bs.foldl (chunkStep mp budget) (chunks, cur)).2.texts
     = chunks.flatMap Chunk.texts ++ cur.texts ++ bs.map Fblock.text) ∧
    ((bs.foldl (chunkStep mp budget) (chunks, cur)).1.flatMap Chunk.nodes
       ++ (bs.foldl (chunkStep mp budget) (chunks, cur)).2.nodes
     = chunks.flatMap Chunk.nodes ++ cur.nodes ++ bs.map Fblock.node)
  | [], chunks, cur, hc, hcur => by
      refine ⟨hc, hcur, ?_, ?_⟩ <;> simp
  | b :: bs, chunks, cur, hc, hcur => by
      obtain ⟨h1, h2, h3, h4⟩ := chunkStep_spec mp budget chunks cur b hc hcur
      have hrec := chunkFold_spec mp budget bs
        (chunkStep mp budget (chunks, cur) b).1
        (chunkStep mp budget (chunks, cur) b).2 h1 h2
      rw [List.foldl_cons] at *
      rw [Prod.mk.eta] at hrec
      refine ⟨hrec.1, hrec.2.1, ?_, ?_⟩
      · rw [hrec.2.2.1, h3]
        simp
      · rw [hrec.2.2.2, h4]
        simp

/-- The chunker's output: all chunks well-formed, and the flattened texts and
nodes reproduce the input block sequence exactly. -/
theorem buildChunks_spec (budget : Nat) (mp : Option ℚ) (blocks : List Fblock) :
    (∀ c ∈ buildChunks budget mp blocks, chunkWF budget c) ∧
    (buildChunks budget mp blocks).flatMap Chunk.texts = blocks.map Fblock.text ∧
    (buildChunks budget mp blocks).flatMap Chunk.nodes = blocks.map Fblock.node := by
  obtain ⟨h1, h2, h3, h4⟩ :=
    chunkFold_spec mp budget blocks [] emptyChunk (by simp) (Or.inl rfl)
  unfold buildChunks
  set r := blocks.foldl (chunkStep mp budget) ([], emptyChunk) with hr
  by_cases hne : r.2.nodes.length > 0
  · rw [if_pos hne]
    refine ⟨?_, ?_, ?_⟩
    · intro c hcm
      rcases List.mem_append.mp hcm with hl | hrr
      · exact h1 c hl
      · rw [List.mem_singleton.mp hrr]
        rcases h2 with he | hw
        · rw [he] at hne; simp [emptyChunk] at hne
        · exact ⟨hw.1, hw.2.1, hw.2.2.1, Or.inl (le_of_lt hw.2.2.2)⟩
    · simpa using h3
    · simpa using h4
  · rw [if_neg hne]
    have hempty : r.2.texts = [] := by
      rcases h2 with he | hw
      · rw [he]; rfl
      · exfalso; apply hne; rw [hw.2.1]; exact List.length_pos.mpr hw.2.2.1
    have hlen0 : r.2.nodes.length = 0 := by omega
    have hemptyn : r.2.nodes = [] := List.length_eq_zero.mp hlen0
    refine ⟨fun c hcm => h1 c hcm, ?_, ?_⟩
    · rw [hempty] at h3; simpa using h3
    · rw [hemptyn] at h4; simpa using h4

/-- C1: every chunk the chunker produces has character total (text lengths
plus a 2-character separator per block) within the budget, except a chunk of
exactly one block whose own count exceeds the budget. -/
theorem chunk_char_budget (budget : Nat) (mp : Option ℚ) (blocks : List Fblock)
    (c : Chunk) (hc : c ∈ buildChunks budget mp blocks) :
    chunkCharTotal c.texts ≤ budget ∨
    (c.texts.length = 1 ∧ c.nodes.length = 1 ∧ chunkCharTotal c.texts > budget) := by
  obtain ⟨hw, -, -⟩ := buildChunks_spec budget mp blocks
  obtain ⟨h1, h2, h3, h4⟩ := hw c hc
  rcases h4 with hle | hone
  · left; omega
  · by_cases hb : chunkCharTotal c.texts ≤ budget
    · exact Or.inl hb
    · exact Or.inr ⟨hone, by rw [h2, hone], by omega⟩

/-- Witness for C1 at a concrete run. -/
theorem chunk_char_budget_witness :
    (⟨[XNode.elem "p" [] .nil], ["abc"], 5⟩ : Chunk) ∈
      buildChunks 20000 none [⟨XNode.elem "p" [] .nil, "abc"⟩] ∧
    (chunkCharTotal ["abc"] ≤ 20000 ∨
     ((["abc"] : List String).length = 1 ∧
      ([XNode.elem "p" [] .nil] : List XNode).length = 1 ∧
      chunkCharTotal ["abc"] > 20000)) :=
  ⟨by decide,
   chunk_char_budget 20000 none [⟨XNode.elem "p" [] .nil, "abc"⟩]
     ⟨[XNode.elem "p" [] .nil], ["abc"], 5⟩ (by decide)⟩

/-- C2: concatenating all chunks' blocks (nodes and texts), in order,
reproduces the input block sequence exactly, and every produced chunk is
non-empty. -/
theorem chunk_concat_exact (budget : Nat) (mp : Option ℚ) (blocks : List Fblock) :
    (buildChunks budget mp blocks).flatMap Chunk.nodes = blocks.map Fblock.node ∧
    (buildChunks budget mp blocks).flatMap Chunk.texts = blocks.map Fblock.text ∧
    ∀ c ∈ buildChunks budget mp blocks, c.nodes ≠ [] ∧ c.texts ≠ [] := by
  obtain ⟨hw, ht, hn⟩ := buildChunks_spec budget mp blocks
  refine ⟨hn, ht, ?_⟩
  intro c hc
  obtain ⟨h1, h2, h3, h4⟩ := hw c hc
  refine ⟨?_, h3⟩
  have hpos : c.nodes.length > 0 := by rw [h2]; exact List.length_pos.mpr h3
  exact List.ne_nil_of_length_pos hpos

/-- Witness for C2 at a concrete run. -/
theorem chunk_concat_exact_witness :
    (buildChunks 20000 none [⟨XNode.elem "p" [] .nil, "ab"⟩]).flatMap Chunk.nodes
      = [XNode.elem "p" [] .nil] ∧
    (⟨[XNode.elem "p" [] .nil], ["ab"], 4⟩ : Chunk).nodes ≠ [] ∧
    (⟨[XNode.elem "p" [] .nil], ["ab"], 4⟩ : Chunk).texts ≠ [] := by
  have h := chunk_concat_exact 20000 none [⟨XNode.elem "p" [] .nil, "ab"⟩]
  exact ⟨h.1, h.2.2 ⟨[XNode.elem "p" [] .nil], ["ab"], 4⟩ (by decide)⟩

/-- A string of `n` repeated characters, for the end-to-end scenarios. -/
def repChar (n : Nat) : String := String.mk (List.replicate n 'a')

/-- Scenario 1's filtered blocks: three paragraphs of 10, 4000 and 50
characters. -/
def scenario1Blocks : List Fblock :=
  [⟨.elem "p" [] .nil, repChar 10⟩,
   ⟨.elem "p" [] .nil, repChar 4000⟩,
   ⟨.elem "p" [] .nil, repChar 50⟩]

theorem repChar_length (n : Nat) : (repChar n).length = n := by
  simp [repChar, String.length]

/-- Evaluation of the chunking loop on any three blocks of 10, 4000 and 50
characters with budget 4096 and no cap: a single chunk of total 4066. -/
theorem scenario1_eval_general (s1 s2 s3 : String) (n1 n2 n3 : XNode)
    (h1 : s1.length = 10) (h2 : s2.length = 4000) (h3 : s3.length = 50) :
    buildChunks 4096 none [⟨n1, s1⟩, ⟨n2, s2⟩, ⟨n3, s3⟩]
      = [⟨[n1, n2, n3], [s1, s2, s3], 4066⟩] := by
  unfold buildChunks
  simp only [List.foldl_cons, List.foldl_nil]
  norm_num [chunkStep, maybeClose, addToCur, pushIfFull, emptyChunk,
    willExceedByCount, h1, h2, h3]

/-- Evaluation of the chunking loop on scenario 1's blocks: one chunk. -/
theorem scenario1_eval :
    buildChunks 4096 none scenario1Blocks =
      [⟨[.elem "p" [] .nil, .elem "p" [] .nil, .elem "p" [] .nil],
        [repChar 10, repChar 4000, repChar 50], 4066⟩] :=
  scenario1_eval_general (repChar 10) (repChar 4000) (repChar 50) _ _ _
    (repChar_length 10) (repChar_length 4000) (repChar_length 50)

/-- Counterexample to C3: with blocks of 10, 4000 and 50 characters and
budget 4096, the chunker does *not* produce 2 chunks: all three blocks fit
into one chunk (10+2 + 4000+2 + 50+2 = 4066 ≤ 4096). -/
theorem scenario1_not_two_chunks :
    (buildChunks 4096 none scenario1Blocks).length ≠ 2 := by
  rw [scenario1_eval]
  decide

/-- C3 (amended): with blocks of 10, 4000 and 50 characters, budget 4096 and
no block-count cap, the chunker produces exactly one chunk holding all three
blocks with character total 4066. -/
theorem scenario1_single_chunk :
    buildChunks 4096 none scenario1Blocks =
      [⟨[.elem "p" [] .nil, .elem "p" [] .nil, .elem "p" [] .nil],
        [repChar 10, repChar 4000, repChar 50], 4066⟩] :=
  scenario1_eval

/-- C10: for every `chunkSize` that is not a positive finite number (NaN,
infinities, zero, negatives), `MAX_PARAS_PER_CHUNK` is infinite, the count
cap never fires, and chunk boundaries are exactly those of the uncapped
chunker over the fixed 20000-character budget. -/
theorem maxParas_uncapped (c : JSNum) (h : (c.isFinite && c.isPos) = false) :
    maxParasPerChunk c = none ∧
    (∀ n : Nat, willExceedByCount (maxParasPerChunk c) n = false) ∧
    ∀ blocks : List Fblock,
      buildChunks MAX_CHARS_PER_CHUNK (maxParasPerChunk c) blocks
        = buildChunks MAX_CHARS_PER_CHUNK none blocks := by
  have h0 : maxParasPerChunk c = none := by
    unfold maxParasPerChunk
    simp [h]
  refine ⟨h0, ?_, ?_⟩
  · intro n; rw [h0]; rfl
  · intro blocks; rw [h0]

/-- Witness for C10 at NaN, negative, infinite and zero chunk sizes. -/
theorem maxParas_uncapped_witness :
    ((JSNum.nan.isFinite && JSNum.nan.isPos) = false ∧
      maxParasPerChunk .nan = none) ∧
    (((JSNum.finite (-3)).isFinite && (JSNum.finite (-3)).isPos) = false ∧
      maxParasPerChunk (.finite (-3)) = none) ∧
    ((JSNum.posInf.isFinite && JSNum.posInf.isPos) = false ∧
      maxParasPerChunk .posInf = none) ∧
    (((JSNum.finite 0).isFinite && (JSNum.finite 0).isPos) = false ∧
      maxParasPerChunk (.finite 0) = none) :=
  ⟨⟨by decide, (maxParas_uncapped .nan (by decide)).1⟩,
   ⟨by decide, (maxParas_uncapped (.finite (-3)) (by decide)).1⟩,
   ⟨by decide, (maxParas_uncapped .posInf (by decide)).1⟩,
   ⟨by decide, (maxParas_uncapped (.finite 0) (by decide)).1⟩⟩

/-! ### Manifest resolution and the translation job (current translation.ts)

The zip archive is an opaque store of named entries; entries hold parsed
document trees (cheerio's parse/serialize round-trip is treated as the
identity). -/

/-- `zip.file(path)?.async('string')` — entry lookup. -/
def lookupEntry (ar : List (String × XForest)) (path : String) : Option XForest :=
  (ar.find? (fun e => e.1 = path)).map (·.2)

/-- `zip.file(path, content)` — replace or add an entry. -/
def updateEntry (ar : List (String × XForest)) (path : String) (doc : XForest) :
    List (String × XForest) :=
  if ar.any (fun e => e.1 = path) then
    ar.map (fun e => if e.1 = path then (path, doc) else e)
  else ar ++ [(path, doc)]

/-- First element with the given tag, in document order (cheerio's `$(tag)`
followed by `.attr` reads the first match). -/
def firstElemWithTag (doc : XForest) (tag : String) : Option XNode :=
  (elemsOfF doc).find?
    (fun n => match n with | .elem t _ _ => t = tag | .text _ => false)

/-- `$container('rootfile').attr('full-path')`. -/
def rootfileFullPath (container : XForest) : Option String :=
  (firstElemWithTag container "rootfile").bind (fun n => attrOf n "full-path")

/-- `'parent > child'` selection: the `child` elements whose direct parent is
a `parent` element, in document order. -/
def childSelect (parentTag childTag : String) (doc : XForest) : List XNode :=
  (elemsOfF doc).flatMap (fun n =>
    match n with
    | .elem t _ cs =>
        if t = parentTag then
          cs.toList.filter
            (fun c => match c with | .elem ct _ _ => ct = childTag | .text _ => false)
        else []
    | .text _ => [])

/-- `opfFilePath.includes('/') ? opfFilePath.substring(0,
opfFilePath.lastIndexOf('/')) : ''`. -/
def dirOfPath (p : String) : String :=
  if p.data.contains '/' then
    String.mk (((p.data.reverse.dropWhile (fun c => !(c = '/'))).drop 1).reverse)
  else ""

/-- `manifest.set(id, fullPath)` over an association list (later writes
override). -/
def mapSet (m : List (String × String)) (k v : String) : List (String × String) :=
  if m.any (fun e => e.1 = k) then
    m.map (fun e => if e.1 = k then (k, v) else e)
  else m ++ [(k, v)]

/-- `manifest.get(k)`. -/
def mapGet (m : List (String × String)) (k : String) : Option String :=
  (m.find? (fun e => e.1 = k)).map (·.2)

/-- The manifest id→path map: `$opf('manifest > item').each(...)`, keeping
items whose `id` and `href` are truthy and prefixing the opf directory. -/
def manifestMapOf (opfDir : String) (opf : XForest) : List (String × String) :=
  (childSelect "manifest" "item" opf).foldl
    (fun m el =>
      match attrOf el "id", attrOf el "href" with
      | some idv, some hrefv =>
          if idv ≠ "" ∧ hrefv ≠ "" then
            mapSet m idv (if opfDir ≠ "" then opfDir ++ "/" ++ hrefv else hrefv)
          else m
      | _, _ => m)
    []

/-- The spine: `$opf('spine > itemref')` idrefs resolved through the
manifest, with unresolved and falsy entries dropped (`filter(Boolean)`). -/
def spineOf (manifest : List (String × String)) (opf : XForest) : List String :=
  ((childSelect "spine" "itemref" opf).filterMap
    (fun el => mapGet manifest ((attrOf el "idref").getD ""))).filter
    (fun s => s ≠ "")

/-- The fatal precondition failures of the manifest resolution (the thrown
`Error`s before the document loop), plus the parse failure raised when a
spine entry's content cannot be read (the earlier job-loop variant has no
missing-content guard). -/
inductive JobError where
  | containerMissing
  | opfPathMissing
  | opfMissing (path : String)
  | docUnreadable (path : String)
deriving DecidableEq

/-- The observable outcome of a job: the final archive, the error if one was
thrown, the written-back document paths, and the `setStatus` trace. -/
structure JobResult where
  archive : List (String × XForest)
  error : Option JobError
  processed : List String
  statuses : List String
deriving DecidableEq

/-- `translatedParagraphs[j] ?? ''` consumed positionally over a chunk
(`chunk.nodes.forEach((node, j) => ...)`). -/
def chunkTranslations (oracle : List String → List String) (c : Chunk) : List String :=
  (List.range c.texts.length).map (fun j => (oracle c.texts).getD j "")

/-- Process one content document (steps 1–6 of the loop): select leaf
blocks, keep those with non-empty normalized text, chunk them, translate each
chunk through the generation service (`oracle` maps a chunk's texts to its
returned array), and apply the results in document order.  `none` when the
document is skipped (`continue`). -/
def processDoc (mode : TranslationMode) (chunkSize : JSNum)
    (oracle : List String → List String) (doc : XForest) :
    Option (XForest × Nat) :=
  let leafNodes := selectLeafBlocks doc
  if leafNodes.isEmpty then none
  else
    let filtered := leafNodes.filterMap (fun n =>
      let tx := normalizeText (textContent n)
      if tx.length > 0 then some (Fblock.mk n tx) else none)
    if filtered.isEmpty then none
    else
      let chunks := buildChunks MAX_CHARS_PER_CHUNK (maxParasPerChunk chunkSize) filtered
      let flatTs := chunks.flatMap (chunkTranslations oracle)
      some (XForest.ofList (applyForest mode doc flatTs).1, chunks.length)

/-- The document loop (`for (const filePath of spine)`), threading the
archive and collecting processed paths and statuses. -/
def runDocsV2 (mode : TranslationMode) (chunkSize : JSNum)
    (oracle : List String → List String) :
    List String → List (String × XForest) →
    List (String × XForest) × List String × List String
  | [], ar => (ar, [], [])
  | path :: rest, ar =>
    match lookupEntry ar path with
    | none =>
        let r := runDocsV2 mode chunkSize oracle rest ar
        (r.1, r.2.1, s!"Processing: {path}" :: r.2.2)
    | some doc =>
        match processDoc mode chunkSize oracle doc with
        | none =>
            let r := runDocsV2 mode chunkSize oracle rest ar
            (r.1, r.2.1, s!"Processing: {path}" :: r.2.2)
        | some (doc2, numChunks) =>
            let ar2 := updateEntry ar path doc2
            let r := runDocsV2 mode chunkSize oracle rest ar2
            (r.1, path :: r.2.1,
             s!"Processing: {path}" ::
               ((List.range numChunks).map
                 (fun i => s!"Translating chunk {i+1}/{numChunks} of {path}...")
                ++ r.2.2))

/-- `translateEpub` (current version): manifest resolution followed by the
document loop; the three precondition failures abort before any document is
touched. -/
def runJobV2 (mode : TranslationMode) (chunkSize : JSNum)
    (oracle : List String → List String)
    (ar : List (String × XForest)) : JobResult :=
  let initStatuses := ["Initializing...", "Unpacking EPUB..."]
  match lookupEntry ar "META-INF/container.xml" with
  | none => ⟨ar, some .containerMissing, [], initStatuses⟩
  | some container =>
    match rootfileFullPath container with
    | none => ⟨ar, some .opfPathMissing, [], initStatuses⟩
    | some opfPath =>
      match lookupEntry ar opfPath with
      | none => ⟨ar, some (.opfMissing opfPath), [], initStatuses⟩
      | some opf =>
        let manifest := manifestMapOf (dirOfPath opfPath) opf
        let spine := spineOf manifest opf
        let r := runDocsV2 mode chunkSize oracle spine ar
        ⟨r.1, none, r.2.1, initStatuses ++ r.2.2⟩

/-- C6: if the fixed-path container pointer entry is absent, or its rootfile
element has no full-path attribute, or the package document it names is
absent, the job fails with an error before any content document is processed,
and the archive is left unmodified. -/
theorem malformed_archive_aborts (mode : TranslationMode) (chunkSize : JSNum)
    (oracle : List String → List String) (ar : List (String × XForest))
    (h : lookupEntry ar "META-INF/container.xml" = none ∨
         (∃ container, lookupEntry ar "META-INF/container.xml" = some container ∧
            rootfileFullPath container = none) ∨
         (∃ container opfPath,
            lookupEntry ar "META-INF/container.xml" = some container ∧
            rootfileFullPath container = some opfPath ∧
            lookupEntry ar opfPath = none)) :
    (runJobV2 mode chunkSize oracle ar).archive = ar ∧
    (runJobV2 mode chunkSize oracle ar).processed = [] ∧
    (runJobV2 mode chunkSize oracle ar).error ≠ none := by
  rcases h with h1 | ⟨c, hc, hr⟩ | ⟨c, p, hc, hr, hp⟩
  · simp [runJobV2, h1]
  · simp [runJobV2, hc, hr]
  · simp [runJobV2, hc, hr, hp]

/-- Witness for C6: the empty archive has no container pointer entry. -/
theorem malformed_archive_aborts_witness :
    lookupEntry ([] : List (String × XForest)) "META-INF/container.xml" = none ∧
    ((runJobV2 .replace .nan (fun _ => []) []).archive = [] ∧
     (runJobV2 .replace .nan (fun _ => []) []).processed = [] ∧
     (runJobV2 .replace .nan (fun _ => []) []).error ≠ none) :=
  ⟨rfl, malformed_archive_aborts .replace .nan (fun _ => []) [] (Or.inl rfl)⟩

/-- C5 (amended): when the returned array is shorter than the chunk's block
count, positions beyond the array get the empty translation (empty content in
replace mode, an empty-bodied artifact node in bilingual mode), no error is
raised (the job's error outcome does not depend on the oracle's arrays at
all).  The mismatch is however *not* recorded in the job's status — see the
counterexample `mismatch_not_recorded`. -/
theorem short_result_defaults_empty (oracle : List String → List String)
    (c : Chunk) (h : (oracle c.texts).length < c.texts.length) :
    (chunkTranslations oracle c).length = c.texts.length ∧
    (∀ j, j < c.texts.length → (oracle c.texts).length ≤ j →
       (chunkTranslations oracle c).getD j "?" = "") ∧
    (∀ tag attrs cs,
       replaceBlock (.elem tag attrs cs) "" = .elem tag attrs .nil ∧
       textContent (replaceBlock (.elem tag attrs cs) "") = "") ∧
    (∀ node, textContent (insertedNode node "") = "" ∧
       hasMarker (classAttrOf (insertedNode node "")) = true) ∧
    ((chunkTranslations oracle c).getD (oracle c.texts).length "?" = "") ∧
    (∀ mode chunkSize ar (oracle2 : List String → List String),
       (runJobV2 mode chunkSize oracle ar).error
         = (runJobV2 mode chunkSize oracle2 ar).error) := by
  have hpoint : ∀ j, j < c.texts.length → (oracle c.texts).length ≤ j →
      (chunkTranslations oracle c).getD j "?" = "" := by
    intro j hj hge
    have hstrip : (chunkTranslations oracle c).getD j "?"
        = (oracle c.texts).getD j "" := by
      unfold chunkTranslations
      rw [List.getD_eq_getElem?_getD]
      rw [List.getElem?_map]
      rw [List.getElem?_range hj]
      simp
    rw [hstrip]
    exact List.getD_eq_default _ _ hge
  refine ⟨by simp [chunkTranslations], hpoint, ?_, ?_,
    hpoint (oracle c.texts).length h (le_refl _), ?_⟩
  · intro tag attrs cs
    exact ⟨rfl, rfl⟩
  · intro node
    rcases insertedNode_cases node "" with he | he <;> rw [he] <;> exact ⟨by decide, by decide⟩
  · intro mode chunkSize ar oracle2
    simp only [runJobV2]
    cases hx : lookupEntry ar "META-INF/container.xml" with
    | none => rfl
    | some container =>
      simp only []
      cases hy : rootfileFullPath container with
      | none => rfl
      | some opfPath =>
        simp only []
        cases hz : lookupEntry ar opfPath with
        | none => rfl
        | some opf => rfl

/-- Witness for C5's amended statement at a concrete two-block chunk and a
one-element result array. -/
theorem short_result_defaults_empty_witness :
    (chunkTranslations (fun _ => ["X"])
        ⟨[.elem "p" [] .nil, .elem "p" [] .nil], ["Hello", "World"], 14⟩).length
      = (["Hello", "World"] : List String).length ∧
    (chunkTranslations (fun _ => ["X"])
        ⟨[.elem "p" [] .nil, .elem "p" [] .nil], ["Hello", "World"], 14⟩).getD 1 "?"
      = "" := by
  have h := short_result_defaults_empty (fun _ => ["X"])
    ⟨[.elem "p" [] .nil, .elem "p" [] .nil], ["Hello", "World"], 14⟩ (by decide)
  exact ⟨h.1, h.2.1 1 (by decide) (by decide)⟩

/-- A two-paragraph content document. -/
def demoDoc : XForest :=
  .cons (.elem "html" []
    (.cons (.elem "body" []
      (.cons (.elem "p" [] (.cons (.text "Hello") .nil))
       (.cons (.elem "p" [] (.cons (.text "World") .nil)) .nil))) .nil)) .nil

/-- A minimal archive: container pointer, package document with one manifest
item and one spine reference, and the content document. -/
def demoArchive : List (String × XForest) :=
  [("META-INF/container.xml",
    .cons (.elem "container" []
      (.cons (.elem "rootfile" [("full-path", "content.opf")] .nil) .nil)) .nil),
   ("content.opf",
    .cons (.elem "package" []
      (.cons (.elem "manifest" []
        (.cons (.elem "item" [("id", "d"), ("href", "doc.xhtml")] .nil) .nil))
       (.cons (.elem "spine" []
        (.cons (.elem "itemref" [("idref", "d")] .nil) .nil)) .nil))) .nil),
   ("doc.xhtml", demoDoc)]

/-- Counterexample to C5's observability conjunct: in replace mode, when the
service returns one string for a two-block chunk, the job completes without
error, the last block's content becomes empty — and the status trace is
*identical* to that of a run whose result array has the full length, so the
ResultCountMismatch is not recorded anywhere in the job's status. -/
theorem mismatch_not_recorded :
    (runJobV2 .replace (.finite 0) (fun _ => ["X"]) demoArchive).statuses
      = (runJobV2 .replace (.finite 0) (fun _ => ["X", "Y"]) demoArchive).statuses ∧
    (runJobV2 .replace (.finite 0) (fun _ => ["X"]) demoArchive).error = none ∧
    lookupEntry (runJobV2 .replace (.finite 0) (fun _ => ["X"]) demoArchive).archive
        "doc.xhtml"
      = some (.cons (.elem "html" []
          (.cons (.elem "body" []
            (.cons (.elem "p" [] (.cons (.text "X") .nil))
             (.cons (.elem "p" [] .nil) .nil))) .nil)) .nil) := by
  refine ⟨by decide, by decide, by decide⟩

/-! ### The earlier job-loop variant with the pause gate

The `translateEpub` variant that takes `getPausePromise` checks the pause
gate once per spine document, after the document has been written back and
its progress callback invoked.  The loop is embedded as a trace-producing
function: each observable action (a `setStatus` call, a generation-service
call, an archive write, a progress callback, an `await getPausePromise()`)
becomes one event, in program order.  The single-threaded `await` means
nothing runs — in particular no archive entry is written — between the
pause event and the next event of the trace. -/

/-- The observable events of the earlier job loop, in program order. -/
inductive JobEvent where
  | statusInit
  | statusUnpacking
  | statusProcessing (path : String)
  | statusTranslating (path : String) (i n : Nat)
  | translateCall (path : String) (i : Nat)
  | writeEntry (path : String)
  | progressEvt (path : String) (idx total : Nat)
  | pauseGate (path : String)
deriving DecidableEq

/-- `$content('p').toArray()` — every `p` element of the document. -/
def pElems (doc : XForest) : List XNode :=
  (elemsOfF doc).filter
    (fun n => match n with | .elem t _ _ => t = "p" | .text _ => false)

/-- `for (let i = 0; i < n; i += chunkSize) chunks.push(slice(i, i + chunkSize))`,
with fuel (the list length bounds the iterations whenever `chunkSize ≥ 1`;
the source loop does not terminate for `chunkSize ≤ 0`, which the claims never
exercise). -/
def sliceChunksGo (k : Nat) : Nat → List XNode → List (List XNode)
  | 0, _ => []
  | _, [] => []
  | fuel + 1, l => l.take k :: sliceChunksGo k fuel (l.drop k)

/-- Slice a list into consecutive chunks of `k` elements. -/
def sliceChunks (k : Nat) (l : List XNode) : List (List XNode) :=
  sliceChunksGo k l.length l

/-- `Array.prototype.join(sep)`. -/
def joinSep (sep : String) : List String → String
  | [] => ""
  | [s] => s
  | s :: rest => s ++ sep ++ joinSep sep rest

/-- `.replace(/&#xa0;/g, ' ')`. -/
def replaceXa0 : List Char → List Char
  | [] => []
  | '&' :: '#' :: 'x' :: 'a' :: '0' :: ';' :: rest => ' ' :: replaceXa0 rest
  | c :: rest => c :: replaceXa0 rest

/-- `chunk.map(p => $content(p).text()).join('\n\n').replace(/&#xa0;/g, ' ')`. -/
def chunkTextV1 (chunk : List XNode) : String :=
  String.mk (replaceXa0 (joinSep "\n\n" (chunk.map textContent)).data)

mutual

/-- Apply the earlier variant's per-paragraph mutation: every `p` element
consumes the next translation; `replace` sets its inner content to the raw
translated string, `bilingual` inserts a marker `p` sibling after it. -/
def applyV1Node (mode : TranslationMode) (n : XNode) (ts : List String) :
    List XNode × List String :=
  match n with
  | .text s => ([.text s], ts)
  | .elem t a cs =>
      if t = "p" then
        let tr := ts.headD ""
        let r := applyV1Forest mode cs ts.tail
        match mode with
        | .replace => ([.elem t a (.cons (.text tr) .nil)], r.2)
        | .bilingual =>
            ([.elem t a (XForest.ofList r.1),
              .elem "p" [("class", translationMarker)] (.cons (.text tr) .nil)], r.2)
      else
        let r := applyV1Forest mode cs ts
        ([.elem t a (XForest.ofList r.1)], r.2)

/-- `applyV1Node` over a forest. -/
def applyV1Forest (mode : TranslationMode) (f : XForest) (ts : List String) :
    List XNode × List String :=
  match f with
  | .nil => ([], ts)
  | .cons n f' =>
      let r1 := applyV1Node mode n ts
      let r2 := applyV1Forest mode f' r1.2
      (r1.1 ++ r2.1, r2.2)

end

/-- `Array.prototype.indexOf` over strings (total: returns the list length
when absent; only used on members). -/
def indexOfStr : List String → String → Nat
  | [], _ => 0
  | x :: xs, s => if x = s then 0 else indexOfStr xs s + 1

/-- The events a fully processed document contributes after its initial
`Processing` status: per-chunk statuses and service calls, the archive
write-back, the progress callback (if provided) and the pause gate (if
provided). -/
def docSegmentV1 (hasProgress hasGate : Bool) (spine : List String)
    (path : String) (numChunks : Nat) : List JobEvent :=
  (List.range numChunks).flatMap
    (fun i => [JobEvent.statusTranslating path (i + 1) numChunks,
               JobEvent.translateCall path i])
  ++ [JobEvent.writeEntry path]
  ++ (if hasProgress
      then [JobEvent.progressEvt path (indexOfStr spine path + 1) spine.length]
      else [])
  ++ (if hasGate then [JobEvent.pauseGate path] else [])

/-- The per-document loop of the earlier variant, producing the final
archive, the event trace and the error that aborted the loop, if any. -/
def runDocsV1 (mode : TranslationMode) (chunkSize : Nat)
    (oracleV1 : String → List String) (hasProgress hasGate : Bool)
    (spine : List String) :
    List String → List (String × XForest) →
    List (String × XForest) × List JobEvent × Option JobError
  | [], ar => (ar, [], none)
  | path :: rest, ar =>
    match lookupEntry ar path with
    | none => (ar, [.statusProcessing path], some (.docUnreadable path))
    | some doc =>
      let paragraphs := pElems doc
      if paragraphs.isEmpty then
        let r := runDocsV1 mode chunkSize oracleV1 hasProgress hasGate spine rest ar
        (r.1, .statusProcessing path :: r.2.1, r.2.2)
      else
        let chunks := sliceChunks chunkSize paragraphs
        let flatTs := chunks.flatMap (fun ch =>
          (List.range ch.length).map (fun j => (oracleV1 (chunkTextV1 ch)).getD j ""))
        let doc2 := XForest.ofList (applyV1Forest mode doc flatTs).1
        let ar2 := updateEntry ar path doc2
        let r := runDocsV1 mode chunkSize oracleV1 hasProgress hasGate spine rest ar2
        (r.1,
         .statusProcessing path ::
           (docSegmentV1 hasProgress hasGate spine path chunks.length ++ r.2.1),
         r.2.2)

/-- The earlier `translateEpub` variant: manifest resolution, then the
document loop with the progress callback and the pause gate. -/
def runJobV1 (mode : TranslationMode) (chunkSize : Nat)
    (oracleV1 : String → List String) (hasProgress hasGate : Bool)
    (ar : List (String × XForest)) :
    List (String × XForest) × List JobEvent × Option JobError :=
  let initEvts := [JobEvent.statusInit, JobEvent.statusUnpacking]
  match lookupEntry ar "META-INF/container.xml" with
  | none => (ar, initEvts, some .containerMissing)
  | some container =>
    match rootfileFullPath container with
    | none => (ar, initEvts, some .opfPathMissing)
    | some opfPath =>
      match lookupEntry ar opfPath with
      | none => (ar, initEvts, some (.opfMissing opfPath))
      | some opf =>
        let manifest := manifestMapOf (dirOfPath opfPath) opf
        let spine := spineOf manifest opf
        let r := runDocsV1 mode chunkSize oracleV1 hasProgress hasGate spine spine ar
        (r.1, initEvts ++ r.2.1, r.2.2)

/-- A pause event's required immediate predecessors: the same document's
archive write and progress snapshot. -/
def isPausePrevOk (p2 p1 : JobEvent) (path : String) : Bool :=
  match p2, p1 with
  | .writeEntry q2, .progressEvt q1 _ _ => q2 = path && q1 = path
  | _, _ => false

/-- Whether an event is the first event of a document iteration. -/
def isDocStart : JobEvent → Bool
  | .statusProcessing _ => true
  | _ => false

/-- Whether an event is a pause-gate evaluation. -/
def isPauseEvt : JobEvent → Bool
  | .pauseGate _ => true
  | _ => false

/-- Whether an event is an archive write. -/
def isWriteEvt : JobEvent → Bool
  | .writeEntry _ => true
  | _ => false

/-- Scan a trace, tracking the two previous events: at every pause event,
require that the immediately preceding events are the same document's write
and progress snapshot, and that the event right after it (if any) is the next
document's first event — so the gate is only ever evaluated at a document
boundary, never between chunks, and nothing (in particular no archive write)
happens between pausing and resuming into the next document. -/
def pauseOkAux : Option JobEvent → Option JobEvent → List JobEvent → Bool
  | _, _, [] => true
  | p2, p1, e :: rest =>
    (match e with
     | .pauseGate path =>
        (match p2, p1 with
         | some q2, some q1 => isPausePrevOk q2 q1 path
         | _, _ => false) &&
        (match rest with
         | [] => true
         | e2 :: _ => isDocStart e2)
     | _ => true)
    && pauseOkAux p1 (some e) rest

/-- The pause-boundary discipline over a whole trace. -/
def pauseBoundaryOk (tr : List JobEvent) : Bool := pauseOkAux none none tr

/-- Number of events satisfying a predicate. -/
def countEvents (p : JobEvent → Bool) (tr : List JobEvent) : Nat :=
  (tr.filter p).length

/-- The two-back state after scanning a pause-free list. -/
def lastTwoPrev : Option JobEvent → Option JobEvent → List JobEvent →
    Option JobEvent × Option JobEvent
  | p2, p1, [] => (p2, p1)
  | _, p1, e :: rest => lastTwoPrev p1 (some e) rest

/-- Scanning past a non-pause event just advances the two-back state. -/
theorem pauseOkAux_cons_nonpause (p2 p1 : Option JobEvent) (e : JobEvent)
    (rest : List JobEvent) (he : isPauseEvt e = false) :
    pauseOkAux p2 p1 (e :: rest) = pauseOkAux p1 (some e) rest := by
  cases e <;> first | rfl | simp [isPauseEvt] at he

/-- Scanning a pause-free prefix only advances the two-back state. -/
theorem pauseOkAux_append_nopause :
    ∀ (l : List JobEvent) (p2 p1 : Option JobEvent) (suffix : List JobEvent),
    (∀ e ∈ l, isPauseEvt e = false) →
    pauseOkAux p2 p1 (l ++ suffix)
      = pauseOkAux (lastTwoPrev p2 p1 l).1 (lastTwoPrev p2 p1 l).2 suffix
  | [], p2, p1, suffix, _ => rfl
  | e :: l, p2, p1, suffix, h => by
      have he : isPauseEvt e = false := h e (List.mem_cons_self e l)
      have hrest : ∀ x ∈ l, isPauseEvt x = false :=
        fun x hx => h x (List.mem_cons_of_mem e hx)
      rw [List.cons_append, pauseOkAux_cons_nonpause p2 p1 e (l ++ suffix) he,
        pauseOkAux_append_nopause l p1 (some e) suffix hrest]
      rfl

theorem countEvents_append (p : JobEvent → Bool) (l1 l2 : List JobEvent) :
    countEvents p (l1 ++ l2) = countEvents p l1 + countEvents p l2 := by
  simp [countEvents, List.filter_append]

theorem countEvents_cons (p : JobEvent → Bool) (e : JobEvent) (l : List JobEvent) :
    countEvents p (e :: l) = (if p e then 1 else 0) + countEvents p l := by
  by_cases hp : p e = true
  · simp [countEvents, hp]
    omega
  · rw [if_neg hp]
    simp only [Bool.not_eq_true] at hp
    simp [countEvents, hp]

/-- The per-chunk status/translate events contain no pause and no write. -/
theorem chunkEvts_no_pause_write (path : String) (m : Nat) :
    ∀ e ∈ (List.range m).flatMap
      (fun i => [JobEvent.statusTranslating path (i + 1) m,
                 JobEvent.translateCall path i]),
    isPauseEvt e = false ∧ isWriteEvt e = false := by
  intro e he
  obtain ⟨i, -, hmem⟩ := List.mem_flatMap.mp he
  simp only [List.mem_cons, List.not_mem_nil, or_false] at hmem
  rcases hmem with h | h
  · rw [h]; exact ⟨rfl, rfl⟩
  · rw [h]; exact ⟨rfl, rfl⟩

/-- A full document segment (progress and gate present) scans cleanly:
the gate event sits right after the write and progress events, and the scan
continues into the rest of the trace. -/
theorem pauseOkAux_docSegment (spine : List String) (path : String) (m : Nat)
    (rtrace : List JobEvent) (p2 p1 : Option JobEvent)
    (hhead : match rtrace with
             | [] => True
             | e :: _ => isDocStart e = true)
    (hrec : ∀ a b : Option JobEvent, pauseOkAux a b rtrace = true) :
    pauseOkAux p2 p1 (docSegmentV1 true true spine path m ++ rtrace) = true := by
  unfold docSegmentV1
  rw [if_pos rfl, if_pos rfl]
  have hshape :
      ((List.range m).flatMap
        (fun i => [JobEvent.statusTranslating path (i + 1) m,
                   JobEvent.translateCall path i])
       ++ [JobEvent.writeEntry path]
       ++ [JobEvent.progressEvt path (indexOfStr spine path + 1) spine.length]
       ++ [JobEvent.pauseGate path]) ++ rtrace
      = (List.range m).flatMap
          (fun i => [JobEvent.statusTranslating path (i + 1) m,
                     JobEvent.translateCall path i])
        ++ (JobEvent.writeEntry path ::
            JobEvent.progressEvt path (indexOfStr spine path + 1) spine.length ::
            JobEvent.pauseGate path :: rtrace) := by
    simp
  rw [hshape]
  rw [pauseOkAux_append_nopause _ p2 p1 _
    (fun e he => (chunkEvts_no_pause_write path m e he).1)]
  rw [pauseOkAux_cons_nonpause _ _ (JobEvent.writeEntry path) _ rfl]
  rw [pauseOkAux_cons_nonpause _ _
    (JobEvent.progressEvt path (indexOfStr spine path + 1) spine.length) _ rfl]
  cases rtrace with
  | nil => simp [pauseOkAux, isPausePrevOk]
  | cons e2 tl =>
      have h2 : isDocStart e2 = true := hhead
      have h1 : isPausePrevOk (JobEvent.writeEntry path)
          (JobEvent.progressEvt path (indexOfStr spine path + 1) spine.length) path
            = true := by
        simp [isPausePrevOk]
      show ((isPausePrevOk (JobEvent.writeEntry path)
              (JobEvent.progressEvt path (indexOfStr spine path + 1) spine.length) path
             && isDocStart e2)
            && pauseOkAux
                (some (JobEvent.progressEvt path (indexOfStr spine path + 1) spine.length))
                (some (JobEvent.pauseGate path)) (e2 :: tl)) = true
      rw [h1, h2, hrec]
      rfl

/-- Both `write` and `pause` occur exactly once in a full document segment. -/
theorem countEvents_docSegment (spine : List String) (path : String) (m : Nat) :
    countEvents isPauseEvt (docSegmentV1 true true spine path m) = 1 ∧
    countEvents isWriteEvt (docSegmentV1 true true spine path m) = 1 := by
  unfold docSegmentV1
  rw [if_pos rfl, if_pos rfl]
  have hchunk0 : ∀ p : JobEvent → Bool,
      (∀ e ∈ (List.range m).flatMap
        (fun i => [JobEvent.statusTranslating path (i + 1) m,
                   JobEvent.translateCall path i]), p e = false) →
      countEvents p ((List.range m).flatMap
        (fun i => [JobEvent.statusTranslating path (i + 1) m,
                   JobEvent.translateCall path i])) = 0 := by
    intro p hp
    unfold countEvents
    rw [List.filter_eq_nil_iff.mpr (by intro a ha; rw [hp a ha]; simp)]
    rfl
  constructor
  · rw [countEvents_append, countEvents_append, countEvents_append]
    rw [hchunk0 _ (fun e he => (chunkEvts_no_pause_write path m e he).1)]
    rfl
  · rw [countEvents_append, countEvents_append, countEvents_append]
    rw [hchunk0 _ (fun e he => (chunkEvts_no_pause_write path m e he).2)]
    rfl

/-- The trace discipline of the document loop: for any incoming scan state,
the checker passes; the trace is empty or starts with a document's first
event; and pause gates and archive writes are in bijection. -/
theorem runDocsV1_trace_ok (mode : TranslationMode) (chunkSize : Nat)
    (oracleV1 : String → List String) (spine : List String) :
    ∀ (paths : List String) (ar : List (String × XForest)),
    (∀ (p2 p1 : Option JobEvent),
       pauseOkAux p2 p1
         (runDocsV1 mode chunkSize oracleV1 true true spine paths ar).2.1 = true) ∧
    (match (runDocsV1 mode chunkSize oracleV1 true true spine paths ar).2.1 with
     | [] => True
     | e :: _ => isDocStart e = true) ∧
    countEvents isPauseEvt (runDocsV1 mode chunkSize oracleV1 true true spine paths ar).2.1
      = countEvents isWriteEvt (runDocsV1 mode chunkSize oracleV1 true true spine paths ar).2.1
  | [], ar => by
      refine ⟨fun p2 p1 => rfl, trivial, rfl⟩
  | path :: rest, ar => by
      cases hx : lookupEntry ar path with
      | none =>
          simp only [runDocsV1, hx]
          refine ⟨fun p2 p1 => rfl, by simp [isDocStart], rfl⟩
      | some doc =>
          cases hpe : (pElems doc).isEmpty with
          | true =>
            have ih := runDocsV1_trace_ok mode chunkSize oracleV1 spine rest ar
            simp only [runDocsV1, hx, hpe, if_true]
            refine ⟨?_, by simp [isDocStart], ?_⟩
            · intro p2 p1
              rw [pauseOkAux_cons_nonpause _ _ _ _ (by rfl)]
              exact ih.1 _ _
            · rw [countEvents_cons, countEvents_cons]
              simp only [isPauseEvt, isWriteEvt]
              rw [ih.2.2]
          | false =>
            have ih := runDocsV1_trace_ok mode chunkSize oracleV1 spine rest
              (updateEntry ar path
                (XForest.ofList (applyV1Forest mode doc
                  ((sliceChunks chunkSize (pElems doc)).flatMap (fun ch =>
                    (List.range ch.length).map
                      (fun j => (oracleV1 (chunkTextV1 ch)).getD j "")))).1))
            simp only [runDocsV1, hx, hpe, Bool.false_eq_true, if_false]
            refine ⟨?_, by simp [isDocStart], ?_⟩
            · intro p2 p1
              rw [pauseOkAux_cons_nonpause _ _ (JobEvent.statusProcessing path) _ rfl]
              exact pauseOkAux_docSegment spine path _ _ _ _ ih.2.1 (fun a b => ih.1 a b)
            · rw [countEvents_cons, countEvents_cons, countEvents_append,
                countEvents_append]
              simp only [isPauseEvt, isWriteEvt]
              rw [(countEvents_docSegment spine path _).1,
                (countEvents_docSegment spine path _).2, ih.2.2]

/-- C9: in the job-loop variant with the pause gate (progress callback and
gate provided), the gate is evaluated only at document boundaries: every
pause event in the trace is immediately preceded by that document's archive
write-back and progress snapshot (so the gate never sits between two chunk
translations), the event following a pause — during which the single-threaded
loop is suspended and no archive entry is written — is the next document's
first event, and pause gates are in bijection with document write-backs. -/
theorem pause_gate_doc_boundary (mode : TranslationMode) (chunkSize : Nat)
    (oracleV1 : String → List String) (ar : List (String × XForest))
    ( _hk : 0 < chunkSize) :
    pauseBoundaryOk (runJobV1 mode chunkSize oracleV1 true true ar).2.1 = true ∧
    countEvents isPauseEvt (runJobV1 mode chunkSize oracleV1 true true ar).2.1
      = countEvents isWriteEvt (runJobV1 mode chunkSize oracleV1 true true ar).2.1 := by
  unfold runJobV1
  cases hx : lookupEntry ar "META-INF/container.xml" with
  | none => exact ⟨rfl, rfl⟩
  | some container =>
    simp only []
    cases hy : rootfileFullPath container with
    | none => exact ⟨rfl, rfl⟩
    | some opfPath =>
      simp only []
      cases hz : lookupEntry ar opfPath with
      | none => exact ⟨rfl, rfl⟩
      | some opf =>
        have h := runDocsV1_trace_ok mode chunkSize oracleV1
          (spineOf (manifestMapOf (dirOfPath opfPath) opf) opf)
          (spineOf (manifestMapOf (dirOfPath opfPath) opf) opf) ar
        constructor
        · unfold pauseBoundaryOk
          simp only [List.cons_append, List.nil_append]
          rw [pauseOkAux_cons_nonpause _ _ JobEvent.statusInit _ rfl]
          rw [pauseOkAux_cons_nonpause _ _ JobEvent.statusUnpacking _ rfl]
          exact h.1 _ _
        · rw [countEvents_append, countEvents_append, h.2.2]
          rfl

/-- Witness for C9 at the concrete demo archive (one spine document of two
paragraphs, chunk size 1). -/
theorem pause_gate_doc_boundary_witness :
    0 < 1 ∧
    (pauseBoundaryOk (runJobV1 .replace 1 (fun _ => ["X"]) true true demoArchive).2.1
        = true ∧
     countEvents isPauseEvt
        (runJobV1 .replace 1 (fun _ => ["X"]) true true demoArchive).2.1
       = countEvents isWriteEvt
          (runJobV1 .replace 1 (fun _ => ["X"]) true true demoArchive).2.1) :=
  ⟨by decide,
   pause_gate_doc_boundary .replace 1 (fun _ => ["X"]) demoArchive (by decide)⟩

end EpubTranslator
